import Mathlib

/-!
Shallow embedding of the classification and aggregation core of
`slack_pull_reminder.py`: the build-status aggregator
(`fetch_combined_build_status`), the review-status classifier
(`fetch_pull_request_review_status_group`) and the group formatter
(`format_pull_requests`), together with proofs about their behaviour.

Timestamps (`updated_at`, `submitted_at`, `commit_date`) are modelled as
natural numbers: the source compares `datetime` values, which form a total
order, and only the order is ever used.  Strings stay strings: contexts,
states and user logins are compared by (string) equality in the source.
-/

namespace SlackPullReminder

/-- One GitHub commit status check (a `github3.repos.status.Status`) as read by
`fetch_combined_build_status`: its `context`, its `state` string and its
optional `updated_at` time (`none` models `updated_at is None`). -/
structure Status where
  context : String
  state : String
  updated_at : Option Nat
deriving DecidableEq

/-- One pull-request review as read by
`fetch_pull_request_review_status_group`: reviewer login, review `state`
string and submission time. -/
structure Review where
  user : String
  state : String
  submitted_at : Nat
deriving DecidableEq

/-- One pull-request commit; the classifier only ever reads the
`commit_date` added by `BetterShortRepoCommit._update_attributes`. -/
structure Commit where
  commit_date : Nat
deriving DecidableEq

/-- The string constants of the source's `CombinedBuildStatus` class. -/
def CombinedBuildStatus.success : String := "success"

/-- See `CombinedBuildStatus.success`. -/
def CombinedBuildStatus.pending : String := "pending"

/-- See `CombinedBuildStatus.success`. -/
def CombinedBuildStatus.failure : String := "failure"

/-- The string constants of the source's `PullRequestReviewState` class. -/
def PullRequestReviewState.APPROVED : String := "APPROVED"

/-- See `PullRequestReviewState.APPROVED`. -/
def PullRequestReviewState.CHANGES_REQUESTED : String := "CHANGES_REQUESTED"

/-- See `PullRequestReviewState.APPROVED`. -/
def PullRequestReviewState.COMMENTED : String := "COMMENTED"

/-- See `PullRequestReviewState.APPROVED`. -/
def PullRequestReviewState.PENDING : String := "PENDING"

/-- The source's `PullRequestStatusGroup` enum. -/
inductive PullRequestStatusGroup where
  | approved
  | changes_requested
  | mixed_reception
  | unreviewed
  | changes_since_review
deriving DecidableEq

/-- Python `str.lower` as used on configuration entries and logins
(ASCII case folding, which is all the source's comparisons rely on). -/
def strLower (s : String) : String := String.mk (s.data.map Char.toLower)

/-- Drop whitespace from both ends of a character list. -/
def stripChars (l : List Char) : List Char :=
  ((l.dropWhile Char.isWhitespace).reverse.dropWhile Char.isWhitespace).reverse

/-- Python `str.strip` with no argument: remove leading and trailing
whitespace. -/
def strStrip (s : String) : String := String.mk (stripChars s.data)

/-- The `b.lower().strip()` normalization applied to every comma-separated
configuration entry (source lines 36-49). -/
def normalizeConfigEntry (s : String) : String := strStrip (strLower s)

/-- `IGNORE_BUILD_STATUS_CONTEXTS` (source lines 47-49): the raw
comma-separated entries of the environment variable, each lowercased and
stripped. -/
def IGNORE_BUILD_STATUS_CONTEXTS (raw : List String) : List String :=
  raw.map normalizeConfigEntry

/-! ### Build status aggregator (`fetch_combined_build_status`, lines 121-161)

The Python dict `most_recent_status_by_context` is embedded as an
insertion-ordered association list of `(Status, t)` pairs keyed by
`Status.context`, where `t` is the (known present) `updated_at` value;
`d[k] = v` on a fresh key appends at the end, on an existing key it replaces
the entry in place, exactly as a Python dict does. -/

/-- One dict update of `most_recent_status_by_context` for a status `b` whose
`updated_at` is `some t` (source lines 138-141): keep the stored entry for
`b.context` unless `t` is strictly greater, store `b` under a fresh context
otherwise. -/
def insertStatus (b : Status) (t : Nat) : List (Status × Nat) → List (Status × Nat)
  | [] => [(b, t)]
  | (s, ts) :: rest =>
    if s.context = b.context then
      if t > ts then (b, t) :: rest else (s, ts) :: rest
    else (s, ts) :: insertStatus b t rest

/-- One iteration of the `for build_status in build_statuses` loop
(source lines 133-141): statuses with `updated_at is None` are skipped. -/
def statusStep (m : List (Status × Nat)) (b : Status) : List (Status × Nat) :=
  match b.updated_at with
  | none => m
  | some t => insertStatus b t m

/-- The fully built `most_recent_status_by_context` dict
(source lines 131-141). -/
def mostRecentStatusByContext (build_statuses : List Status) : List (Status × Nat) :=
  build_statuses.foldl statusStep []

/-- The `for context_to_ingnore in IGNORE_BUILD_STATUS_CONTEXTS: ... del`
loop (source lines 143-145): each ignore entry deletes the dict entry whose
context is exactly equal to it, when present. -/
def removeIgnoredContexts (ignored : List String) (m : List (Status × Nat)) :
    List (Status × Nat) :=
  ignored.foldl (fun acc c => acc.eraseP (fun p => p.1.context == c)) m

/-- The final verdict loop over `most_recent_statuses` with its `any_pending`
flag (source lines 153-161): return `failure` as soon as a failed status is
seen, otherwise `pending` if any status was pending, otherwise `success`. -/
def combinedVerdict : List (Status × Nat) → Bool → String
  | [], any_pending =>
    if any_pending then CombinedBuildStatus.pending else CombinedBuildStatus.success
  | (s, _) :: rest, any_pending =>
    if s.state = CombinedBuildStatus.failure then CombinedBuildStatus.failure
    else combinedVerdict rest (any_pending || (s.state == CombinedBuildStatus.pending))

/-- `fetch_combined_build_status` (source lines 121-161), parameterized by the
already-normalized `IGNORE_BUILD_STATUS_CONTEXTS` list and by the fetched
status sequence; `none` models the Python `None` returned when no statuses
remain. -/
def fetch_combined_build_status (ignored : List String) (build_statuses : List Status) :
    Option String :=
  let retained := removeIgnoredContexts ignored (mostRecentStatusByContext build_statuses)
  if retained.length = 0 then none
  else some (combinedVerdict retained false)

/-! ### Review status classifier (`fetch_pull_request_review_status_group`,
lines 213-254) -/

/-- Stable insertion of `x` into a list already sorted descending by `key`:
`x` goes after every element with a strictly greater key and before the first
element with a smaller-or-equal key. -/
def insertDescBy (key : α → Nat) (x : α) : List α → List α
  | [] => [x]
  | y :: ys => if key y > key x then y :: insertDescBy key x ys else x :: y :: ys

/-- Stable descending sort by `key`: the unique permutation that is sorted by
`key` descending and keeps the input order of equal keys, i.e. Python's
`sorted(l, key=key, reverse=True)` (source lines 217 and 243). -/
def sortDescBy (key : α → Nat) : List α → List α
  | [] => []
  | y :: ys => insertDescBy key y (sortDescBy key ys)

/-- The `only keep last review by this reviewer` loop (source lines 222-231):
walk the (already sorted, newest first) reviews, keeping a review only when
its author has not been seen yet. -/
def keepLastReviewPerUser : List Review → List String → List Review
  | [], _ => []
  | r :: rest, users =>
    if r.user ∈ users then keepLastReviewPerUser rest users
    else r :: keepLastReviewPerUser rest (r.user :: users)

/-- The retained reviews `last_reviews` (source lines 214-231): sort by
`submitted_at` newest first, drop the pull-request author's own reviews, drop
`COMMENTED` reviews, then keep the first (most recent) review per reviewer. -/
def lastReviews (reviews : List Review) (prUser : String) : List Review :=
  keepLastReviewPerUser
    (((sortDescBy (fun r => r.submitted_at) reviews).filter
        (fun r => !(r.user == prUser))).filter
      (fun r => !(r.state == PullRequestReviewState.COMMENTED)))
    []

/-- The `changes_requested` / `approved` flag loop (source lines 233-239),
with its `elif`: a review sets the first flag when its state is
`CHANGES_REQUESTED`, otherwise the second when it is `APPROVED`. -/
def reviewFlags : List Review → Bool → Bool → Bool × Bool
  | [], changes_requested, approved => (changes_requested, approved)
  | r :: rest, changes_requested, approved =>
    if r.state = PullRequestReviewState.CHANGES_REQUESTED then
      reviewFlags rest true approved
    else if r.state = PullRequestReviewState.APPROVED then
      reviewFlags rest changes_requested true
    else reviewFlags rest changes_requested approved

/-- `fetch_pull_request_review_status_group` (source lines 213-254),
parameterized by the fetched reviews, the fetched commits and the
pull-request author's login.  The source indexes `commits[0]` and
`last_reviews[0]`; an index into an empty list raises `IndexError` in Python,
which the embedding models by returning `none` (no group). -/
def fetch_pull_request_review_status_group (reviews : List Review) (commits : List Commit)
    (prUser : String) : Option PullRequestStatusGroup :=
  let last_reviews := lastReviews reviews prUser
  let flags := reviewFlags last_reviews false false
  if flags.1 then
    match sortDescBy (fun c => c.commit_date) commits, last_reviews with
    | c :: _, r :: _ =>
      some (if c.commit_date > r.submitted_at then PullRequestStatusGroup.changes_since_review
            else if flags.2 then PullRequestStatusGroup.mixed_reception
            else PullRequestStatusGroup.changes_requested)
    | _, _ => none
  else if flags.2 then some PullRequestStatusGroup.approved
  else some PullRequestStatusGroup.unreviewed

/-! ### Group formatter (`format_pull_requests`, lines 257-287)

The formatter is embedded at the granularity the grouping logic works at: a
list of already-formatted lines, each tagged with the review-status group the
classifier assigned to its pull request, in the order the source loop
appends them. -/

/-- Default `APPROVED_GROUP_MSG` (source line 64). -/
def APPROVED_GROUP_MSG : String := ":heart_eyes: _Approved_"

/-- Default `CHANGES_REQUESTED_GROUP_MSG` (source line 65). -/
def CHANGES_REQUESTED_GROUP_MSG : String := ":thinking_face: _Changes Requested_"

/-- Default `MIXED_RECEPTION_GROUP_MSG` (source line 66). -/
def MIXED_RECEPTION_GROUP_MSG : String := ":confounded: _Mixed Reception_"

/-- Default `UNREVIEWED_GROUP_MSG` (source line 67). -/
def UNREVIEWED_GROUP_MSG : String := ":eyetwitch: _Needs Review_"

/-- Default `CHANGES_SINCE_REVIEW_GROUP_MSG` (source lines 68-69). -/
def CHANGES_SINCE_REVIEW_GROUP_MSG : String := ":eyes: _Changes Since Last Review_"

/-- `pr_status_group_to_msg` (source lines 71-77). -/
def pr_status_group_to_msg : PullRequestStatusGroup → String
  | PullRequestStatusGroup.unreviewed => UNREVIEWED_GROUP_MSG
  | PullRequestStatusGroup.mixed_reception => MIXED_RECEPTION_GROUP_MSG
  | PullRequestStatusGroup.changes_requested => CHANGES_REQUESTED_GROUP_MSG
  | PullRequestStatusGroup.approved => APPROVED_GROUP_MSG
  | PullRequestStatusGroup.changes_since_review => CHANGES_SINCE_REVIEW_GROUP_MSG

/-- `pr_status_groups_display_order` (source lines 78-84). -/
def pr_status_groups_display_order : List PullRequestStatusGroup :=
  [PullRequestStatusGroup.unreviewed,
   PullRequestStatusGroup.changes_since_review,
   PullRequestStatusGroup.mixed_reception,
   PullRequestStatusGroup.changes_requested,
   PullRequestStatusGroup.approved]

/-- `grouped_by_pr_status[g]` after the build loop (source lines 259-275): the
lines tagged with group `g`, in append (input) order; a `defaultdict(list)`
lookup of an untouched key is the empty list. -/
def groupedLines (tagged : List (PullRequestStatusGroup × String))
    (g : PullRequestStatusGroup) : List String :=
  (tagged.filter (fun p => p.1 == g)).map (fun p => p.2)

/-- The output assembly of `format_pull_requests` (source lines 265-287): with
`SPLIT_BY_REVIEW_STATUS` every line is tagged by its classifier group and the
display-order loop emits, per non-empty group, its header then its lines;
without it every line went under the single `default` key, which is returned
unchanged. -/
def format_pull_requests (split_by_review_status : Bool)
    (tagged : List (PullRequestStatusGroup × String)) : List String :=
  if split_by_review_status then
    pr_status_groups_display_order.foldl
      (fun output group =>
        let lines := groupedLines tagged group
        if lines.isEmpty then output
        else output ++ (pr_status_group_to_msg group :: lines))
      []
  else tagged.map (fun p => p.2)

/-! ### Spec-side definitions

Declarative formulations used in the theorem statements, plus the predicates
the permutation-invariance theorem is stated with. -/

/-- Sorted descending by `key`, duplicates allowed. -/
def SortedDescBy (key : α → Nat) (l : List α) : Prop :=
  l.Pairwise (fun a b => key b ≤ key a)

/-- The greatest commit timestamp of a commit list (0 when empty). -/
def maxCommitDate (commits : List Commit) : Nat :=
  commits.foldl (fun m c => max m c.commit_date) 0

/-- The greatest submission timestamp of a review list (0 when empty). -/
def maxSubmittedAt (reviews : List Review) : Nat :=
  reviews.foldl (fun m r => max m r.submitted_at) 0

/-- The dict lookup: the first (and, contexts being unique keys, only) entry
stored under context `c`. -/
def lookupContext (c : String) (m : List (Status × Nat)) : Option (Status × Nat) :=
  m.find? (fun p => p.1.context == c)

/-- Keep the accumulated entry unless the next one has a strictly greater
timestamp — the source's replacement rule. -/
def pickFirstMax (acc : Option (Status × Nat)) (x : Status × Nat) :
    Option (Status × Nat) :=
  match acc with
  | none => some x
  | some y => if x.2 > y.2 then some x else some y

/-- The first entry, in input order, realizing the strictly greatest
timestamp. -/
def firstMaxEntry (l : List (Status × Nat)) : Option (Status × Nat) :=
  l.foldl pickFirstMax none

/-- The timestamped statuses of context `c`, paired with their timestamps, in
input order. -/
def timedEntries (c : String) (l : List Status) : List (Status × Nat) :=
  l.filterMap (fun s => match s.updated_at with
    | none => none
    | some t => if s.context = c then some (s, t) else none)

/-- Two statuses never carry the same context with the same present
timestamp.  Pairwise over a status list, this is the hypothesis under which
the aggregator is order-independent. -/
def DistinctTimes (s t : Status) : Prop :=
  s.context = t.context → s.updated_at ≠ none → t.updated_at ≠ none →
    s.updated_at ≠ t.updated_at

instance : DecidableRel DistinctTimes := fun s t => by
  unfold DistinctTimes
  infer_instance

/-- The association list has pairwise distinct context keys (the dict
invariant). -/
def NodupContexts (m : List (Status × Nat)) : Prop :=
  m.Pairwise (fun p q => p.1.context ≠ q.1.context)

/-! ### Helper lemmas -/

/-- Folding `fun out g => out ++ h g` over a list appends the concatenation of
the images. -/
theorem foldl_append_eq_append_join (h : α → List β) :
    ∀ (l : List α) (acc : List β),
      l.foldl (fun out g => out ++ h g) acc = acc ++ (l.map h).join
  | [], acc => by simp
  | g :: gs, acc => by
    simp only [List.foldl_cons, List.map_cons, List.join_cons]
    rw [foldl_append_eq_append_join h gs, List.append_assoc]

/-- The source's flag loop computes exactly the two `any` predicates over the
retained reviews (the `elif` never loses an `APPROVED`, because a review's
state is a single string). -/
theorem reviewFlags_eq (l : List Review) : ∀ (c a : Bool),
    reviewFlags l c a =
      (c || l.any (fun r => r.state == PullRequestReviewState.CHANGES_REQUESTED),
       a || l.any (fun r => r.state == PullRequestReviewState.APPROVED)) := by
  induction l with
  | nil => intro c a; simp [reviewFlags]
  | cons r rest ih =>
    intro c a
    by_cases h1 : r.state = PullRequestReviewState.CHANGES_REQUESTED
    · simp [reviewFlags, h1, ih, Bool.or_assoc,
        (by decide : (PullRequestReviewState.CHANGES_REQUESTED
          == PullRequestReviewState.APPROVED) = false)]
    · by_cases h2 : r.state = PullRequestReviewState.APPROVED
      · simp [reviewFlags, h1, h2, ih, Bool.or_assoc,
          (by decide : (PullRequestReviewState.APPROVED
            == PullRequestReviewState.CHANGES_REQUESTED) = false),
          (by decide : ¬ (PullRequestReviewState.APPROVED
            = PullRequestReviewState.CHANGES_REQUESTED))]
      · have e1 : (r.state == PullRequestReviewState.CHANGES_REQUESTED) = false := by
          simp [h1]
        have e2 : (r.state == PullRequestReviewState.APPROVED) = false := by
          simp [h2]
        simp [reviewFlags, h1, h2, ih, e1, e2]

/-- Inserting with `insertDescBy` permutes consing. -/
theorem insertDescBy_perm (key : α → Nat) (x : α) :
    ∀ l : List α, (insertDescBy key x l).Perm (x :: l)
  | [] => List.Perm.refl _
  | y :: ys => by
    unfold insertDescBy
    by_cases h : key y > key x
    · rw [if_pos h]
      exact ((insertDescBy_perm key x ys).cons y).trans (List.Perm.swap x y ys)
    · rw [if_neg h]

/-- `sortDescBy` permutes its input. -/
theorem sortDescBy_perm (key : α → Nat) :
    ∀ l : List α, (sortDescBy key l).Perm l
  | [] => List.Perm.refl _
  | y :: ys =>
    (insertDescBy_perm key y (sortDescBy key ys)).trans ((sortDescBy_perm key ys).cons y)

/-- `insertDescBy` preserves descending sortedness. -/
theorem insertDescBy_sorted (key : α → Nat) (x : α) :
    ∀ l : List α, SortedDescBy key l → SortedDescBy key (insertDescBy key x l)
  | [], _ => List.pairwise_singleton _ _
  | y :: ys, h => by
    rcases List.pairwise_cons.mp h with ⟨hy, hys⟩
    unfold insertDescBy
    by_cases hk : key y > key x
    · rw [if_pos hk]
      refine List.pairwise_cons.mpr ⟨?_, insertDescBy_sorted key x ys hys⟩
      intro z hz
      have hz' : z ∈ x :: ys := (insertDescBy_perm key x ys).mem_iff.mp hz
      rcases List.mem_cons.mp hz' with rfl | hzy
      · exact Nat.le_of_lt hk
      · exact hy z hzy
    · rw [if_neg hk]
      refine List.pairwise_cons.mpr ⟨?_, h⟩
      intro z hz
      rcases List.mem_cons.mp hz with rfl | hzy
      · exact Nat.le_of_not_lt hk
      · exact le_trans (hy z hzy) (Nat.le_of_not_lt hk)

/-- `sortDescBy` sorts descending. -/
theorem sortDescBy_sorted (key : α → Nat) :
    ∀ l : List α, SortedDescBy key (sortDescBy key l)
  | [] => List.Pairwise.nil
  | y :: ys => insertDescBy_sorted key y (sortDescBy key ys) (sortDescBy_sorted key ys)

/-- The dedup loop output is a sublist of its input. -/
theorem keepLastReviewPerUser_sublist :
    ∀ (l : List Review) (users : List String),
      (keepLastReviewPerUser l users).Sublist l
  | [], _ => List.Sublist.refl _
  | r :: rest, users => by
    unfold keepLastReviewPerUser
    by_cases h : r.user ∈ users
    · rw [if_pos h]
      exact (keepLastReviewPerUser_sublist rest users).cons r
    · rw [if_neg h]
      exact (keepLastReviewPerUser_sublist rest (r.user :: users)).cons₂ r

/-- No review retained by the dedup loop has an already-seen author. -/
theorem keepLastReviewPerUser_not_seen :
    ∀ (l : List Review) (users : List String) (r : Review),
      r ∈ keepLastReviewPerUser l users → r.user ∉ users
  | [], users, r => by intro hr; cases hr
  | x :: rest, users, r => by
    intro hr
    unfold keepLastReviewPerUser at hr
    by_cases h : x.user ∈ users
    · rw [if_pos h] at hr
      exact keepLastReviewPerUser_not_seen rest users r hr
    · rw [if_neg h] at hr
      rcases List.mem_cons.mp hr with rfl | hr'
      · exact h
      · have := keepLastReviewPerUser_not_seen rest (x.user :: users) r hr'
        exact fun hu => this (List.mem_cons_of_mem _ hu)

/-- The dedup loop keeps at most one review per author. -/
theorem keepLastReviewPerUser_users_nodup :
    ∀ (l : List Review) (users : List String),
      (keepLastReviewPerUser l users).Pairwise (fun r s => r.user ≠ s.user)
  | [], _ => List.Pairwise.nil
  | x :: rest, users => by
    unfold keepLastReviewPerUser
    by_cases h : x.user ∈ users
    · rw [if_pos h]
      exact keepLastReviewPerUser_users_nodup rest users
    · rw [if_neg h]
      refine List.pairwise_cons.mpr
        ⟨?_, keepLastReviewPerUser_users_nodup rest (x.user :: users)⟩
      intro s hs he
      exact keepLastReviewPerUser_not_seen rest (x.user :: users) s hs
        (he ▸ List.mem_cons_self _ _)

/-- On a newest-first input, each review the dedup loop retains is at least as
recent as every same-author review of the input. -/
theorem keepLastReviewPerUser_max :
    ∀ (l : List Review) (users : List String),
      SortedDescBy (fun r => r.submitted_at) l →
      ∀ r ∈ keepLastReviewPerUser l users,
        ∀ s ∈ l, s.user = r.user → s.submitted_at ≤ r.submitted_at
  | [], _, _ => by intro r hr; cases hr
  | x :: rest, users, h => by
    rcases List.pairwise_cons.mp h with ⟨hx, hrest⟩
    intro r hr s hs hu
    unfold keepLastReviewPerUser at hr
    by_cases hmem : x.user ∈ users
    · rw [if_pos hmem] at hr
      rcases List.mem_cons.mp hs with rfl | hs'
      · exact absurd (hu ▸ hmem) (keepLastReviewPerUser_not_seen rest users r hr)
      · exact keepLastReviewPerUser_max rest users hrest r hr s hs' hu
    · rw [if_neg hmem] at hr
      rcases List.mem_cons.mp hr with rfl | hr'
      · rcases List.mem_cons.mp hs with rfl | hs'
        · exact Nat.le_refl _
        · exact hx s hs'
      · rcases List.mem_cons.mp hs with he | hs'
        · have hnot : r.user ∉ x.user :: users :=
            keepLastReviewPerUser_not_seen rest (x.user :: users) r hr'
          exfalso
          apply hnot
          have hxr : x.user = r.user := by rw [← he]; exact hu
          rw [← hxr]
          exact List.mem_cons_self _ _
        · exact keepLastReviewPerUser_max rest (x.user :: users) hrest r hr' s hs' hu

/-- Every retained review is a non-self, non-commented review of the input. -/
theorem lastReviews_mem (reviews : List Review) (u : String) (r : Review)
    (hr : r ∈ lastReviews reviews u) :
    r ∈ reviews ∧ r.user ≠ u ∧ r.state ≠ PullRequestReviewState.COMMENTED := by
  have h1 : r ∈ ((sortDescBy (fun r => r.submitted_at) reviews).filter
      (fun r => !(r.user == u))).filter
      (fun r => !(r.state == PullRequestReviewState.COMMENTED)) :=
    (keepLastReviewPerUser_sublist _ []).subset hr
  rcases List.mem_filter.mp h1 with ⟨h2, hc⟩
  rcases List.mem_filter.mp h2 with ⟨h3, hu⟩
  refine ⟨(sortDescBy_perm _ reviews).subset h3, ?_, ?_⟩
  · simpa using hu
  · simpa using hc

/-- The retained reviews are still sorted newest first. -/
theorem lastReviews_sorted (reviews : List Review) (u : String) :
    SortedDescBy (fun r => r.submitted_at) (lastReviews reviews u) :=
  List.Pairwise.sublist (keepLastReviewPerUser_sublist _ [])
    (List.Pairwise.sublist ((List.filter_sublist _).trans (List.filter_sublist _))
      (sortDescBy_sorted _ reviews))

/-- A retained review is at least as recent as every qualifying (non-self,
non-commented) same-author review of the input. -/
theorem lastReviews_max (reviews : List Review) (u : String) (r : Review)
    (hr : r ∈ lastReviews reviews u) (s : Review) (hs : s ∈ reviews)
    (husr : s.user = r.user) (hsc : s.state ≠ PullRequestReviewState.COMMENTED) :
    s.submitted_at ≤ r.submitted_at := by
  have hru : r.user ≠ u := (lastReviews_mem reviews u r hr).2.1
  have hsu : s.user ≠ u := husr ▸ hru
  have hsorted : SortedDescBy (fun r => r.submitted_at)
      (((sortDescBy (fun r => r.submitted_at) reviews).filter
          (fun r => !(r.user == u))).filter
        (fun r => !(r.state == PullRequestReviewState.COMMENTED))) :=
    List.Pairwise.sublist ((List.filter_sublist _).trans (List.filter_sublist _))
      (sortDescBy_sorted _ reviews)
  have hsmem : s ∈ ((sortDescBy (fun r => r.submitted_at) reviews).filter
      (fun r => !(r.user == u))).filter
      (fun r => !(r.state == PullRequestReviewState.COMMENTED)) := by
    refine List.mem_filter.mpr ⟨List.mem_filter.mpr
      ⟨(sortDescBy_perm _ reviews).symm.subset hs, ?_⟩, ?_⟩
    · simpa using hsu
    · simpa using hsc
  exact keepLastReviewPerUser_max _ [] hsorted r hr s hsmem husr

/-- A max-fold is at least its initial value. -/
theorem init_le_foldl_max (key : α → Nat) :
    ∀ (l : List α) (a : Nat), a ≤ l.foldl (fun m x => max m (key x)) a
  | [], a => Nat.le_refl a
  | x :: xs, a =>
    le_trans (Nat.le_max_left a (key x)) (init_le_foldl_max key xs (max a (key x)))

/-- A max-fold dominates every member. -/
theorem mem_le_foldl_max (key : α → Nat) :
    ∀ (l : List α) (a : Nat) (x : α), x ∈ l →
      key x ≤ l.foldl (fun m y => max m (key y)) a
  | [], _, x, hx => absurd hx (List.not_mem_nil x)
  | y :: ys, a, x, hx => by
    rcases List.mem_cons.mp hx with rfl | hx'
    · exact le_trans (Nat.le_max_right a (key x)) (init_le_foldl_max key ys _)
    · exact mem_le_foldl_max key ys _ x hx'

/-- A max-fold is bounded by any common bound. -/
theorem foldl_max_le (key : α → Nat) :
    ∀ (l : List α) (a b : Nat), a ≤ b → (∀ x ∈ l, key x ≤ b) →
      l.foldl (fun m x => max m (key x)) a ≤ b
  | [], a, b, ha, _ => ha
  | x :: xs, a, b, ha, hl =>
    foldl_max_le key xs (max a (key x)) b
      (Nat.max_le.mpr ⟨ha, hl x (List.mem_cons_self x xs)⟩)
      (fun y hy => hl y (List.mem_cons_of_mem x hy))

/-- The head of a sorted-descending list realizes the max-fold of any list it
permutes from. -/
theorem head_eq_foldl_max (key : α → Nat) (l sorted : List α) (x : α) (rest : List α)
    (hperm : sorted.Perm l) (hsorted : SortedDescBy key sorted)
    (hhead : sorted = x :: rest) :
    l.foldl (fun m y => max m (key y)) 0 = key x := by
  subst hhead
  have hmem : x ∈ l := hperm.subset (List.mem_cons_self x rest)
  have hbound : ∀ y ∈ l, key y ≤ key x := by
    intro y hy
    rcases List.mem_cons.mp (hperm.symm.subset hy) with rfl | hy'
    · exact Nat.le_refl _
    · exact (List.pairwise_cons.mp hsorted).1 y hy'
  exact Nat.le_antisymm (foldl_max_le key l 0 (key x) (Nat.zero_le _) hbound)
    (mem_le_foldl_max key l 0 x hmem)

/-! ### Permutation behaviour of the status dict (claim C3) -/

/-- `DistinctTimes` is symmetric. -/
theorem distinctTimes_symm (s t : Status) (h : DistinctTimes s t) : DistinctTimes t s :=
  fun hc ht hs he => h hc.symm hs ht he.symm

/-- `NodupContexts` transfers along permutations. -/
theorem nodupContexts_perm (m m' : List (Status × Nat)) (hp : m.Perm m')
    (h : NodupContexts m) : NodupContexts m' :=
  (List.Perm.pairwise_iff (fun hne he => hne he.symm) hp).mp h

/-- Members of an insert are the new entry or old members. -/
theorem mem_insertStatus (b : Status) (t : Nat) :
    ∀ (m : List (Status × Nat)) (q : Status × Nat),
      q ∈ insertStatus b t m → q = (b, t) ∨ q ∈ m
  | [], q => by
    intro hq
    simp [insertStatus] at hq
    exact Or.inl hq
  | (s, ts) :: rest, q => by
    intro hq
    unfold insertStatus at hq
    by_cases hs : s.context = b.context
    · rw [if_pos hs] at hq
      by_cases ht : t > ts
      · rw [if_pos ht] at hq
        rcases List.mem_cons.mp hq with rfl | h'
        · exact Or.inl rfl
        · exact Or.inr (List.mem_cons_of_mem _ h')
      · rw [if_neg ht] at hq
        exact Or.inr hq
    · rw [if_neg hs] at hq
      rcases List.mem_cons.mp hq with rfl | h'
      · exact Or.inr (List.mem_cons_self _ _)
      · rcases mem_insertStatus b t rest q h' with h | h
        · exact Or.inl h
        · exact Or.inr (List.mem_cons_of_mem _ h)

/-- Inserting preserves distinct context keys. -/
theorem insertStatus_nodup (b : Status) (t : Nat) :
    ∀ m : List (Status × Nat), NodupContexts m → NodupContexts (insertStatus b t m)
  | [], _ => List.pairwise_singleton _ _
  | (s, ts) :: rest, h => by
    rcases List.pairwise_cons.mp h with ⟨hhead, hrest⟩
    unfold insertStatus
    by_cases hs : s.context = b.context
    · rw [if_pos hs]
      by_cases ht : t > ts
      · rw [if_pos ht]
        refine List.pairwise_cons.mpr ⟨?_, hrest⟩
        intro q hq
        exact hs ▸ hhead q hq
      · rw [if_neg ht]
        exact h
    · rw [if_neg hs]
      refine List.pairwise_cons.mpr ⟨?_, insertStatus_nodup b t rest hrest⟩
      intro q hq
      rcases mem_insertStatus b t rest q hq with rfl | hq'
      · exact fun he => hs he
      · exact hhead q hq'

/-- When no entry holds the new context, an insert appends at the end. -/
theorem insertStatus_append (b : Status) (t : Nat) :
    ∀ m : List (Status × Nat), (∀ p ∈ m, p.1.context ≠ b.context) →
      insertStatus b t m = m ++ [(b, t)]
  | [], _ => rfl
  | (s, ts) :: rest, h => by
    have hs : ¬ s.context = b.context := h (s, ts) (List.mem_cons_self _ _)
    unfold insertStatus
    rw [if_neg hs,
      insertStatus_append b t rest (fun p hp => h p (List.mem_cons_of_mem _ hp))]
    rfl

/-- When an entry `e` holds the new context, an insert permutes to the winner
of `e` against the new entry, consed onto the remaining entries. -/
theorem insertStatus_replace (b : Status) (t : Nat) :
    ∀ (m : List (Status × Nat)) (e : Status × Nat), NodupContexts m → e ∈ m →
      e.1.context = b.context →
      (insertStatus b t m).Perm ((if t > e.2 then (b, t) else e)
        :: @List.erase _ instBEqOfDecidableEq m e)
  | [], e => by intro _ he _; cases he
  | (s, ts) :: rest, e => by
    intro hnd he hctx
    rcases List.pairwise_cons.mp hnd with ⟨hhead, hrest⟩
    rcases List.mem_cons.mp he with rfl | he'
    · have herase : @List.erase _ instBEqOfDecidableEq ((s, ts) :: rest) (s, ts) = rest :=
        @List.erase_cons_head _ instBEqOfDecidableEq instLawfulBEq (s, ts) rest
      unfold insertStatus
      rw [if_pos hctx, herase]
      by_cases ht : t > ts
      · rw [if_pos ht, if_pos ht]
      · rw [if_neg ht, if_neg ht]
    · have hs : ¬ s.context = b.context := fun hsb => hhead e he' (hsb.trans hctx.symm)
      have hvne : (s, ts) ≠ e := fun hbe => hhead e he' (hbe ▸ rfl)
      have herase : @List.erase _ instBEqOfDecidableEq ((s, ts) :: rest) e
          = (s, ts) :: @List.erase _ instBEqOfDecidableEq rest e :=
        @List.erase_cons_tail _ instBEqOfDecidableEq e (s, ts) rest
          (fun hbe => hvne (of_decide_eq_true hbe))
      unfold insertStatus
      rw [if_neg hs, herase]
      exact ((insertStatus_replace b t rest e hrest he' hctx).cons (s, ts)).trans
        (List.Perm.swap _ _ _)

/-- Insert respects permutation of dicts with distinct context keys. -/
theorem insertStatus_perm (b : Status) (t : Nat) (m m' : List (Status × Nat))
    (hnd : NodupContexts m) (hp : m.Perm m') :
    (insertStatus b t m).Perm (insertStatus b t m') := by
  by_cases hex : ∃ e ∈ m, e.1.context = b.context
  · obtain ⟨e, hem, hctx⟩ := hex
    have hnd' : NodupContexts m' := nodupContexts_perm m m' hp hnd
    have he' : e ∈ m' := hp.subset hem
    refine ((insertStatus_replace b t m e hnd hem hctx).trans ?_).trans
      (insertStatus_replace b t m' e hnd' he' hctx).symm
    exact (hp.erase e).cons _
  · push_neg at hex
    rw [insertStatus_append b t m hex,
      insertStatus_append b t m' (fun p hp' => hex p (hp.symm.subset hp'))]
    exact hp.append_right _

/-- One loop step preserves distinct context keys. -/
theorem statusStep_nodup (m : List (Status × Nat)) (b : Status)
    (h : NodupContexts m) : NodupContexts (statusStep m b) := by
  cases hu : b.updated_at with
  | none => simpa [statusStep, hu] using h
  | some t => simpa [statusStep, hu] using insertStatus_nodup b t m h

/-- One loop step respects permutation of dicts with distinct context keys. -/
theorem statusStep_perm (m m' : List (Status × Nat)) (b : Status)
    (hnd : NodupContexts m) (hp : m.Perm m') :
    (statusStep m b).Perm (statusStep m' b) := by
  cases hu : b.updated_at with
  | none => simpa [statusStep, hu] using hp
  | some t => simpa [statusStep, hu] using insertStatus_perm b t m m' hnd hp

/-- Inserting into a dict whose head holds the same context resolves to the
winner against the head. -/
theorem insertStatus_cons_same (b : Status) (t : Nat) (s : Status) (ts : Nat)
    (rest : List (Status × Nat)) (h : s.context = b.context) :
    insertStatus b t ((s, ts) :: rest) = (if t > ts then (b, t) else (s, ts)) :: rest := by
  unfold insertStatus
  rw [if_pos h]
  by_cases ht : t > ts
  · rw [if_pos ht, if_pos ht]
  · rw [if_neg ht, if_neg ht]

/-- Inserting into a dict whose head holds another context skips the head. -/
theorem insertStatus_cons_other (b : Status) (t : Nat) (s : Status) (ts : Nat)
    (rest : List (Status × Nat)) (h : ¬ s.context = b.context) :
    insertStatus b t ((s, ts) :: rest) = (s, ts) :: insertStatus b t rest := by
  unfold insertStatus
  rw [if_neg h]
  cases rest with
  | nil => rfl
  | cons p r => rfl

/-- Two inserts under the same context with distinct timestamps commute
exactly: the strictly greater timestamp wins either way. -/
theorem insertStatus_comm_eq (x y : Status) (tx ty : Nat) (hctx : x.context = y.context)
    (hne : tx ≠ ty) :
    ∀ m : List (Status × Nat),
      insertStatus y ty (insertStatus x tx m) = insertStatus x tx (insertStatus y ty m)
  | [] => by
    have e1 : insertStatus x tx [] = [(x, tx)] := rfl
    have e2 : insertStatus y ty [] = [(y, ty)] := rfl
    rw [e1, e2, insertStatus_cons_same y ty x tx [] hctx,
      insertStatus_cons_same x tx y ty [] hctx.symm]
    split_ifs <;> first | rfl | (exfalso; omega)
  | (s, ts) :: rest => by
    by_cases hsx : s.context = x.context
    · have hsy : s.context = y.context := hsx.trans hctx
      rw [insertStatus_cons_same x tx s ts rest hsx,
        insertStatus_cons_same y ty s ts rest hsy]
      by_cases h1 : tx > ts
      · rw [if_pos h1, insertStatus_cons_same y ty x tx rest hctx]
        by_cases h2 : ty > ts
        · rw [if_pos h2, insertStatus_cons_same x tx y ty rest hctx.symm]
          split_ifs <;> first | rfl | (exfalso; omega)
        · rw [if_neg h2, insertStatus_cons_same x tx s ts rest hsx]
          split_ifs <;> first | rfl | (exfalso; omega)
      · rw [if_neg h1, insertStatus_cons_same y ty s ts rest hsy]
        by_cases h2 : ty > ts
        · rw [if_pos h2, insertStatus_cons_same x tx y ty rest hctx.symm]
          split_ifs <;> first | rfl | (exfalso; omega)
        · rw [if_neg h2, insertStatus_cons_same x tx s ts rest hsx]
          split_ifs <;> first | rfl | (exfalso; omega)
    · have hsy : ¬ s.context = y.context := fun h => hsx (h.trans hctx.symm)
      rw [insertStatus_cons_other x tx s ts rest hsx,
        insertStatus_cons_other y ty s ts (insertStatus x tx rest) hsy,
        insertStatus_cons_other y ty s ts rest hsy,
        insertStatus_cons_other x tx s ts (insertStatus y ty rest) hsx]
      exact congrArg (List.cons (s, ts)) (insertStatus_comm_eq x y tx ty hctx hne rest)

/-- Two inserts under different contexts commute up to permutation (they can
both land as fresh appends, in either order). -/
theorem insertStatus_comm_ne (x y : Status) (tx ty : Nat) (hne : x.context ≠ y.context) :
    ∀ m : List (Status × Nat),
      (insertStatus y ty (insertStatus x tx m)).Perm
        (insertStatus x tx (insertStatus y ty m))
  | [] => by
    have e1 : insertStatus x tx [] = [(x, tx)] := rfl
    have e2 : insertStatus y ty [] = [(y, ty)] := rfl
    have hne2 : ¬ y.context = x.context := fun h => hne h.symm
    rw [e1, e2, insertStatus_cons_other y ty x tx [] hne,
      insertStatus_cons_other x tx y ty [] hne2, e1, e2]
    exact List.Perm.swap _ _ _
  | (s, ts) :: rest => by
    by_cases hsx : s.context = x.context
    · have hsy : ¬ s.context = y.context := fun h => hne (hsx.symm.trans h)
      rw [insertStatus_cons_same x tx s ts rest hsx]
      by_cases h1 : tx > ts
      · rw [if_pos h1, insertStatus_cons_other y ty x tx rest hne,
          insertStatus_cons_other y ty s ts rest hsy,
          insertStatus_cons_same x tx s ts (insertStatus y ty rest) hsx, if_pos h1]
      · rw [if_neg h1, insertStatus_cons_other y ty s ts rest hsy,
          insertStatus_cons_same x tx s ts (insertStatus y ty rest) hsx, if_neg h1]
    · by_cases hsy : s.context = y.context
      · rw [insertStatus_cons_other x tx s ts rest hsx,
          insertStatus_cons_same y ty s ts (insertStatus x tx rest) hsy,
          insertStatus_cons_same y ty s ts rest hsy]
        by_cases h2 : ty > ts
        · rw [if_pos h2,
            insertStatus_cons_other x tx y ty rest (fun h => hne h.symm)]
        · rw [if_neg h2,
            insertStatus_cons_other x tx s ts rest hsx]
      · rw [insertStatus_cons_other x tx s ts rest hsx,
          insertStatus_cons_other y ty s ts (insertStatus x tx rest) hsy,
          insertStatus_cons_other y ty s ts rest hsy,
          insertStatus_cons_other x tx s ts (insertStatus y ty rest) hsx]
        exact (insertStatus_comm_ne x y tx ty hne rest).cons _

/-- Two loop steps for statuses with no shared (context, timestamp) commute
up to permutation of the dict. -/
theorem statusStep_comm (m : List (Status × Nat)) (x y : Status)
    (hd : DistinctTimes x y) :
    (statusStep (statusStep m x) y).Perm (statusStep (statusStep m y) x) := by
  cases hx : x.updated_at with
  | none =>
    simp only [statusStep, hx]
    exact List.Perm.refl _
  | some tx =>
    cases hy : y.updated_at with
    | none =>
      simp only [statusStep, hy]
      exact List.Perm.refl _
    | some ty =>
      simp only [statusStep, hx, hy]
      by_cases hctx : x.context = y.context
      · have htne : tx ≠ ty := by
          intro he
          exact hd hctx (by simp [hx]) (by simp [hy]) (by rw [hx, hy, he])
        rw [insertStatus_comm_eq x y tx ty hctx htne m]
      · exact insertStatus_comm_ne x y tx ty hctx m

/-- The status fold keeps the dict invariant. -/
theorem foldl_statusStep_nodup :
    ∀ (l : List Status) (m : List (Status × Nat)),
      NodupContexts m → NodupContexts (l.foldl statusStep m)
  | [], _, h => h
  | b :: rest, m, h => by
    rw [List.foldl_cons]
    exact foldl_statusStep_nodup rest _ (statusStep_nodup m b h)

/-- The status fold maps permuted accumulators to permuted results. -/
theorem foldl_statusStep_acc_perm :
    ∀ (l : List Status) (m m' : List (Status × Nat)), NodupContexts m → m.Perm m' →
      (l.foldl statusStep m).Perm (l.foldl statusStep m')
  | [], _, _, _, hp => hp
  | b :: rest, m, m', hnd, hp => by
    rw [List.foldl_cons, List.foldl_cons]
    exact foldl_statusStep_acc_perm rest _ _ (statusStep_nodup m b hnd)
      (statusStep_perm m m' b hnd hp)

/-- Permuting the status sequence permutes the built dict, provided no two
statuses share a context and a present timestamp. -/
theorem foldl_statusStep_perm : ∀ {l l' : List Status}, l.Perm l' →
    l.Pairwise DistinctTimes →
    ∀ (m m' : List (Status × Nat)), NodupContexts m → m.Perm m' →
      (l.foldl statusStep m).Perm (l'.foldl statusStep m') := by
  intro l l' hp
  induction hp with
  | nil =>
    intro _ m m' _ hmp
    exact hmp
  | cons b p ih =>
    intro hd m m' hnd hmp
    rw [List.foldl_cons, List.foldl_cons]
    exact ih (List.Pairwise.of_cons hd) _ _ (statusStep_nodup m b hnd)
      (statusStep_perm m m' b hnd hmp)
  | swap x y t =>
    intro hd m m' hnd hmp
    rw [List.foldl_cons, List.foldl_cons, List.foldl_cons, List.foldl_cons]
    have hdyx : DistinctTimes y x :=
      (List.pairwise_cons.mp hd).1 x (List.mem_cons_self _ _)
    have h1 : (statusStep (statusStep m y) x).Perm (statusStep (statusStep m' y) x) :=
      statusStep_perm _ _ x (statusStep_nodup m y hnd)
        (statusStep_perm m m' y hnd hmp)
    have h2 : (statusStep (statusStep m' y) x).Perm (statusStep (statusStep m' x) y) :=
      statusStep_comm m' y x hdyx
    exact foldl_statusStep_acc_perm t _ _
      (statusStep_nodup _ x (statusStep_nodup m y hnd)) (h1.trans h2)
  | trans p1 p2 ih1 ih2 =>
    intro hd m m' hnd hmp
    have hd2 := (List.Perm.pairwise_iff (fun h => distinctTimes_symm _ _ h) p1).mp hd
    exact (ih1 hd m m hnd (List.Perm.refl m)).trans (ih2 hd2 m m' hnd hmp)

/-- On a dict with unique context keys, the ignore-deletion is the filter that
drops the (at most one) entry of that context. -/
theorem eraseP_eq_filter_of_nodup (cstr : String) :
    ∀ m : List (Status × Nat), NodupContexts m →
      m.eraseP (fun p => p.1.context == cstr)
        = m.filter (fun p => !(p.1.context == cstr))
  | [], _ => rfl
  | (s, ts) :: rest, hnd => by
    rcases List.pairwise_cons.mp hnd with ⟨hhead, hrest⟩
    by_cases hs : s.context = cstr
    · have hb : ((s, ts).1.context == cstr) = true := by simp [hs]
      have hfil : rest.filter (fun p => !(p.1.context == cstr)) = rest := by
        apply List.filter_eq_self.mpr
        intro p hp
        have hne := hhead p hp
        have hpc : p.1.context ≠ cstr := fun hpc => hne (hs.trans hpc.symm)
        simp [hpc]
      rw [List.eraseP_cons, hb, List.filter_cons, hb]
      simp [hfil]
    · have hb : ((s, ts).1.context == cstr) = false := by simp [hs]
      rw [List.eraseP_cons, hb, List.filter_cons, hb]
      simp only [cond_false, Bool.not_false, if_true]
      rw [eraseP_eq_filter_of_nodup cstr rest hrest]

/-- The ignore-removal respects permutation of dicts with unique context
keys. -/
theorem removeIgnoredContexts_perm :
    ∀ (ign : List String) (m m' : List (Status × Nat)), NodupContexts m → m.Perm m' →
      (removeIgnoredContexts ign m).Perm (removeIgnoredContexts ign m')
  | [], _, _, _, hp => hp
  | c :: cs, m, m', hnd, hp => by
    have hnd' : NodupContexts m' := nodupContexts_perm m m' hp hnd
    have h1 : removeIgnoredContexts (c :: cs) m
        = removeIgnoredContexts cs (m.filter (fun p => !(p.1.context == c))) := by
      unfold removeIgnoredContexts
      simp only [List.foldl_cons]
      rw [eraseP_eq_filter_of_nodup c m hnd]
    have h2 : removeIgnoredContexts (c :: cs) m'
        = removeIgnoredContexts cs (m'.filter (fun p => !(p.1.context == c))) := by
      unfold removeIgnoredContexts
      simp only [List.foldl_cons]
      rw [eraseP_eq_filter_of_nodup c m' hnd']
    rw [h1, h2]
    exact removeIgnoredContexts_perm cs _ _
      (List.Pairwise.sublist (List.filter_sublist m) hnd) (hp.filter _)

/-- `List.any` is permutation-invariant. -/
theorem any_perm_eq (l l' : List (Status × Nat)) (hp : l.Perm l')
    (f : Status × Nat → Bool) : l.any f = l'.any f := by
  cases h : l'.any f with
  | false =>
    rw [List.any_eq_false] at h ⊢
    exact fun x hx => h x (hp.subset hx)
  | true =>
    rw [List.any_eq_true] at h ⊢
    obtain ⟨x, hx, hfx⟩ := h
    exact ⟨x, hp.symm.subset hx, hfx⟩

/-! ### Claims -/

/-- The verdict loop equals the declarative verdict: failure dominates
whenever any retained status failed, regardless of position, otherwise any
pending status (or an already-set flag) gives pending, otherwise success. -/
theorem combinedVerdict_eq :
    ∀ (l : List (Status × Nat)) (b : Bool),
      combinedVerdict l b =
        if l.any (fun p => p.1.state == CombinedBuildStatus.failure)
        then CombinedBuildStatus.failure
        else if b || l.any (fun p => p.1.state == CombinedBuildStatus.pending)
          then CombinedBuildStatus.pending
          else CombinedBuildStatus.success
  | [], b => by simp [combinedVerdict]
  | (s, t) :: rest, b => by
    by_cases hf : s.state = CombinedBuildStatus.failure
    · simp [combinedVerdict, hf]
    · have ef : (s.state == CombinedBuildStatus.failure) = false := by simp [hf]
      have hunf : combinedVerdict ((s, t) :: rest) b
          = if s.state = CombinedBuildStatus.failure then CombinedBuildStatus.failure
            else combinedVerdict rest (b || (s.state == CombinedBuildStatus.pending)) := rfl
      rw [hunf, if_neg hf, combinedVerdict_eq rest, List.any_cons, List.any_cons, ef,
        Bool.false_or, Bool.or_assoc]

/-- Statuses with an absent timestamp never touch the dict: the fold equals
the fold over the timestamped statuses only. -/
theorem mostRecent_skips_untimed :
    ∀ (l : List Status) (m : List (Status × Nat)),
      l.foldl statusStep m = (l.filter (fun s => s.updated_at.isSome)).foldl statusStep m
  | [], _ => rfl
  | b :: rest, m => by
    cases hb : b.updated_at with
    | none =>
      have hstep : statusStep m b = m := by simp [statusStep, hb]
      simp [List.filter_cons, hb, hstep, mostRecent_skips_untimed rest m]
    | some t =>
      have hfil : (b :: rest).filter (fun s => s.updated_at.isSome)
          = b :: rest.filter (fun s => s.updated_at.isSome) := by
        simp [List.filter_cons, hb]
      rw [List.foldl_cons, hfil, List.foldl_cons,
        mostRecent_skips_untimed rest (statusStep m b)]

/-- Claim C1: the aggregator discards statuses with an absent timestamp, and
after the per-context reduction and the ignore-list removal returns absent on
an empty remainder, failure when any remaining state is failure (wherever it
sits in the scan), else pending when any remaining state is pending, else
success. -/
theorem combined_build_status_spec (ignored : List String) (l : List Status) :
    mostRecentStatusByContext l
      = mostRecentStatusByContext (l.filter (fun s => s.updated_at.isSome))
    ∧ fetch_combined_build_status ignored l =
        (if removeIgnoredContexts ignored (mostRecentStatusByContext l) = [] then none
         else if (removeIgnoredContexts ignored (mostRecentStatusByContext l)).any
             (fun p => p.1.state == CombinedBuildStatus.failure)
           then some CombinedBuildStatus.failure
           else if (removeIgnoredContexts ignored (mostRecentStatusByContext l)).any
               (fun p => p.1.state == CombinedBuildStatus.pending)
             then some CombinedBuildStatus.pending
             else some CombinedBuildStatus.success) := by
  refine ⟨mostRecent_skips_untimed l [], ?_⟩
  simp only [fetch_combined_build_status]
  by_cases hX : removeIgnoredContexts ignored (mostRecentStatusByContext l) = []
  · simp [hX]
  · have hlen : ¬ (removeIgnoredContexts ignored (mostRecentStatusByContext l)).length = 0 := by
      simpa [List.length_eq_zero] using hX
    rw [if_neg hlen, if_neg hX, combinedVerdict_eq]
    simp only [Bool.false_or]
    split_ifs <;> rfl

/-! ### Per-context reduction, characterized (claim C5) -/

/-- Inserting a status of a different context leaves a lookup unchanged. -/
theorem lookup_insert_ne (c : String) (b : Status) (t : Nat) (hne : ¬ b.context = c) :
    ∀ m : List (Status × Nat),
      lookupContext c (insertStatus b t m) = lookupContext c m
  | [] => by
    have hbc : (b.context == c) = false := by simp [hne]
    simp [insertStatus, lookupContext, List.find?, hbc]
  | (s, ts) :: rest => by
    by_cases hs : s.context = b.context
    · have hsc : (s.context == c) = false := by simp [hs, hne]
      have hbc : (b.context == c) = false := by simp [hne]
      unfold insertStatus
      rw [if_pos hs]
      by_cases ht : t > ts
      · rw [if_pos ht]
        simp [lookupContext, List.find?, hsc, hbc]
      · rw [if_neg ht]
    · unfold insertStatus
      rw [if_neg hs]
      by_cases hsc : s.context = c
      · simp [lookupContext, List.find?, hsc]
      · have hsc' : (s.context == c) = false := by simp [hsc]
        simp only [lookupContext, List.find?, hsc']
        exact lookup_insert_ne c b t hne rest

/-- Inserting a status of context `c` updates the lookup by the strict
greater-timestamp rule. -/
theorem lookup_insert_eq (c : String) (b : Status) (t : Nat) (heq : b.context = c) :
    ∀ m : List (Status × Nat),
      lookupContext c (insertStatus b t m) = pickFirstMax (lookupContext c m) (b, t)
  | [] => by
    simp [insertStatus, lookupContext, List.find?, heq, pickFirstMax]
  | (s, ts) :: rest => by
    by_cases hs : s.context = b.context
    · have hsc : (s.context == c) = true := by simp [hs, heq]
      have hbc : (b.context == c) = true := by simp [heq]
      unfold insertStatus
      rw [if_pos hs]
      by_cases ht : t > ts
      · rw [if_pos ht]
        simp [lookupContext, List.find?, hsc, hbc, pickFirstMax, ht]
      · rw [if_neg ht]
        simp [lookupContext, List.find?, hsc, pickFirstMax, ht]
    · have hsc : (s.context == c) = false := by
        simp only [beq_eq_false_iff_ne, ne_eq]
        intro hcc
        exact hs (heq ▸ hcc)
      unfold insertStatus
      rw [if_neg hs]
      simp only [lookupContext, List.find?, hsc]
      exact lookup_insert_eq c b t heq rest

/-- Folding the status loop commutes with restricting to one context: the
lookup of the built dict at `c` is the first-max scan of the timestamped
`c`-entries. -/
theorem lookup_foldl_statusStep (c : String) :
    ∀ (l : List Status) (m : List (Status × Nat)),
      lookupContext c (l.foldl statusStep m)
        = (timedEntries c l).foldl pickFirstMax (lookupContext c m)
  | [], _ => rfl
  | b :: rest, m => by
    cases hb : b.updated_at with
    | none =>
      have ht : timedEntries c (b :: rest) = timedEntries c rest := by
        simp [timedEntries, List.filterMap_cons, hb]
      have hstep : statusStep m b = m := by simp [statusStep, hb]
      rw [List.foldl_cons, hstep, ht, lookup_foldl_statusStep c rest m]
    | some t =>
      have hstep : statusStep m b = insertStatus b t m := by simp [statusStep, hb]
      by_cases hc : b.context = c
      · have ht : timedEntries c (b :: rest) = (b, t) :: timedEntries c rest := by
          simp [timedEntries, List.filterMap_cons, hb, hc]
        rw [List.foldl_cons, hstep, ht, List.foldl_cons,
          lookup_foldl_statusStep c rest (insertStatus b t m), lookup_insert_eq c b t hc]
      · have ht : timedEntries c (b :: rest) = timedEntries c rest := by
          simp [timedEntries, List.filterMap_cons, hb, hc]
        rw [List.foldl_cons, hstep, ht,
          lookup_foldl_statusStep c rest (insertStatus b t m), lookup_insert_ne c b t hc]

/-- Claim C5: for every context, the entry the reduction retains is the first
entry, in input order, among that context's timestamped statuses to realize
the strictly greatest timestamp — a later equal-timestamp entry never
replaces it; in particular a failure at t=1 followed by a success at t=1 for
the same context yields failure. -/
theorem most_recent_by_context_spec :
    (∀ (l : List Status) (c : String),
      lookupContext c (mostRecentStatusByContext l) = firstMaxEntry (timedEntries c l))
    ∧ fetch_combined_build_status []
        [Status.mk "a" CombinedBuildStatus.failure (some 1),
         Status.mk "a" CombinedBuildStatus.success (some 1)]
        = some CombinedBuildStatus.failure := by
  refine ⟨fun l c => lookup_foldl_statusStep c l [], ?_⟩
  decide

/-- Claim C3 counterexample: the aggregator is not invariant under all
permutations.  Two statuses for the same context with the same timestamp keep
whichever came first (the tie never replaces), so swapping a failure@1 and a
success@1 for context "a" flips the verdict from failure to success. -/
theorem combined_build_status_order_dependent :
    List.Perm
      [Status.mk "a" CombinedBuildStatus.failure (some 1),
       Status.mk "a" CombinedBuildStatus.success (some 1)]
      [Status.mk "a" CombinedBuildStatus.success (some 1),
       Status.mk "a" CombinedBuildStatus.failure (some 1)]
    ∧ fetch_combined_build_status []
        [Status.mk "a" CombinedBuildStatus.failure (some 1),
         Status.mk "a" CombinedBuildStatus.success (some 1)]
      ≠ fetch_combined_build_status []
        [Status.mk "a" CombinedBuildStatus.success (some 1),
         Status.mk "a" CombinedBuildStatus.failure (some 1)] :=
  ⟨by decide, by decide⟩

/-- Claim C3 as amended: for every status multiset in which no two entries
share both a context and a present last-updated timestamp, the aggregator
returns the same combined build status for every permutation of the input. -/
theorem combined_build_status_perm_invariant (ignored : List String)
    (l l' : List Status) (hd : l.Pairwise DistinctTimes) (hp : l.Perm l') :
    fetch_combined_build_status ignored l = fetch_combined_build_status ignored l' := by
  have hm : (mostRecentStatusByContext l).Perm (mostRecentStatusByContext l') :=
    foldl_statusStep_perm hp hd [] [] List.Pairwise.nil (List.Perm.refl [])
  have hnd : NodupContexts (mostRecentStatusByContext l) :=
    foldl_statusStep_nodup l [] List.Pairwise.nil
  have hr : (removeIgnoredContexts ignored (mostRecentStatusByContext l)).Perm
      (removeIgnoredContexts ignored (mostRecentStatusByContext l')) :=
    removeIgnoredContexts_perm ignored _ _ hnd hm
  have hlen := hr.length_eq
  have hf := any_perm_eq _ _ hr (fun p => p.1.state == CombinedBuildStatus.failure)
  have hpend := any_perm_eq _ _ hr (fun p => p.1.state == CombinedBuildStatus.pending)
  simp only [fetch_combined_build_status, combinedVerdict_eq, Bool.false_or]
  rw [hlen, hf, hpend]

/-- Concrete instance of `combined_build_status_perm_invariant`: a failure and
a pending status on distinct contexts, in either order, both aggregate to
failure. -/
theorem combined_build_status_perm_invariant_witness :
    fetch_combined_build_status []
      [Status.mk "a" CombinedBuildStatus.failure (some 1),
       Status.mk "b" CombinedBuildStatus.pending (some 2)]
      = fetch_combined_build_status []
        [Status.mk "b" CombinedBuildStatus.pending (some 2),
         Status.mk "a" CombinedBuildStatus.failure (some 1)] :=
  combined_build_status_perm_invariant [] _ _ (by decide) (by decide)

/-- Claim C4 (code bug): the ignore entries are lowercased when the
configuration is read, but the deletion from `most_recent_status_by_context`
compares the raw context string for exact equality.  An ignore entry `"A"`
is normalized to `"a"` and then fails to match the context `"A"`, so the
failure status survives and the verdict is `failure`, not absent; only an
exactly-lowercase context is removed. -/
theorem ignored_context_match_is_case_sensitive :
    IGNORE_BUILD_STATUS_CONTEXTS ["A"] = ["a"]
    ∧ fetch_combined_build_status (IGNORE_BUILD_STATUS_CONTEXTS ["A"])
        [Status.mk "A" CombinedBuildStatus.failure (some 1)]
        = some CombinedBuildStatus.failure
    ∧ fetch_combined_build_status (IGNORE_BUILD_STATUS_CONTEXTS ["a"])
        [Status.mk "a" CombinedBuildStatus.failure (some 1)] = none := by
  exact ⟨by decide, by decide, by decide⟩

/-- Claim C8: with splitting enabled the formatter emits the groups in the
fixed order unreviewed, changes-since-review, mixed-reception,
changes-requested, approved, each non-empty group contributing its header
followed by its lines in append order and each empty group contributing
nothing; with splitting disabled it returns the flat line list unchanged. -/
theorem format_pull_requests_spec (tagged : List (PullRequestStatusGroup × String)) :
    format_pull_requests true tagged =
      ([PullRequestStatusGroup.unreviewed, PullRequestStatusGroup.changes_since_review,
        PullRequestStatusGroup.mixed_reception, PullRequestStatusGroup.changes_requested,
        PullRequestStatusGroup.approved].map
        (fun g =>
          if groupedLines tagged g = [] then []
          else pr_status_group_to_msg g :: groupedLines tagged g)).join
    ∧ format_pull_requests false tagged = tagged.map (fun p => p.2) := by
  constructor
  · have hbody : (fun (output : List String) (group : PullRequestStatusGroup) =>
        let lines := groupedLines tagged group
        if lines.isEmpty then output
        else output ++ (pr_status_group_to_msg group :: lines))
        = fun (output : List String) (group : PullRequestStatusGroup) => output ++
            (if groupedLines tagged group = [] then []
             else pr_status_group_to_msg group :: groupedLines tagged group) := by
      funext output group
      by_cases hg : groupedLines tagged group = []
      · simp [hg]
      · simp [hg, List.isEmpty_iff]
    rw [format_pull_requests, if_pos rfl, hbody, foldl_append_eq_append_join]
    rfl
  · simp [format_pull_requests]

/-- Two reviews by the same (non-author) reviewer reduce to the later one:
the sort puts the later review first, the filters keep both (when neither is
a comment), and the dedup loop drops the older one. -/
theorem lastReviews_pair (a u st1 st2 : String) (t1 t2 : Nat)
    (h : a ≠ u) (hlt : t1 < t2)
    (h1 : st1 ≠ PullRequestReviewState.COMMENTED)
    (h2 : st2 ≠ PullRequestReviewState.COMMENTED) :
    lastReviews [Review.mk a st1 t1, Review.mk a st2 t2] u = [Review.mk a st2 t2] := by
  have hsort : sortDescBy (fun r : Review => r.submitted_at)
      [Review.mk a st1 t1, Review.mk a st2 t2]
      = [Review.mk a st2 t2, Review.mk a st1 t1] := by
    simp [sortDescBy, insertDescBy, hlt]
  have ha : (a == u) = false := by simp [h]
  have hc1 : (st1 == PullRequestReviewState.COMMENTED) = false := by simp [h1]
  have hc2 : (st2 == PullRequestReviewState.COMMENTED) = false := by simp [h2]
  unfold lastReviews
  rw [hsort]
  simp [List.filter, ha, hc1, hc2, keepLastReviewPerUser]

/-- Claim C2: when the retained reviews contain a changes-requested review and
there is at least one commit, the classifier compares the greatest commit
timestamp with the submission timestamp of the most recent retained review
(their maximum): strictly newer commits give changes-since-review, otherwise
an approved retained review gives mixed-reception, else changes-requested. -/
theorem review_group_changes_requested_spec (reviews : List Review)
    (commits : List Commit) (prUser : String)
    (hcr : ∃ r ∈ lastReviews reviews prUser,
      r.state = PullRequestReviewState.CHANGES_REQUESTED)
    (hc : commits ≠ []) :
    fetch_pull_request_review_status_group reviews commits prUser =
      some (if maxSubmittedAt (lastReviews reviews prUser) < maxCommitDate commits
            then PullRequestStatusGroup.changes_since_review
            else if (lastReviews reviews prUser).any
                (fun r => r.state == PullRequestReviewState.APPROVED)
              then PullRequestStatusGroup.mixed_reception
              else PullRequestStatusGroup.changes_requested) := by
  obtain ⟨r0, hr0, hst0⟩ := hcr
  have hany : ((lastReviews reviews prUser).any
      (fun x => x.state == PullRequestReviewState.CHANGES_REQUESTED)) = true :=
    List.any_eq_true.mpr ⟨r0, hr0, by simp [hst0]⟩
  cases hlr : lastReviews reviews prUser with
  | nil => rw [hlr] at hr0; cases hr0
  | cons x xs =>
    cases hcs : sortDescBy (fun c : Commit => c.commit_date) commits with
    | nil =>
      have hp := sortDescBy_perm (fun c : Commit => c.commit_date) commits
      rw [hcs] at hp
      exact absurd hp.symm.eq_nil hc
    | cons c cs =>
      have hcmax : maxCommitDate commits = c.commit_date :=
        head_eq_foldl_max (fun c : Commit => c.commit_date) commits
          (sortDescBy (fun c : Commit => c.commit_date) commits) c cs
          (sortDescBy_perm _ commits) (sortDescBy_sorted _ commits) hcs
      have hrmax : maxSubmittedAt (lastReviews reviews prUser) = x.submitted_at :=
        head_eq_foldl_max (fun r : Review => r.submitted_at)
          (lastReviews reviews prUser) (lastReviews reviews prUser) x xs
          (List.Perm.refl _) (lastReviews_sorted reviews prUser) hlr
      rw [hlr] at hany hrmax
      unfold fetch_pull_request_review_status_group
      simp only [reviewFlags_eq, Bool.false_or]
      rw [hlr, hany, if_pos rfl, hcs, hcmax, hrmax]

/-- Concrete instance of `review_group_changes_requested_spec`: one
changes-requested review at time 5, one commit at time 3 (no newer commit,
nobody approved), classified changes-requested. -/
theorem review_group_changes_requested_spec_witness :
    fetch_pull_request_review_status_group
      [Review.mk "bob" PullRequestReviewState.CHANGES_REQUESTED 5]
      [Commit.mk 3] "alice" = some PullRequestStatusGroup.changes_requested := by
  have := review_group_changes_requested_spec
    [Review.mk "bob" PullRequestReviewState.CHANGES_REQUESTED 5]
    [Commit.mk 3] "alice" (by decide) (by decide)
  simpa using this

/-- Claim C6: the classifier counts only each reviewer's most recent
non-comment review (later reviews supersede earlier ones from the same
author); a reviewer who requested changes and then approved yields the
approved group, and in general each retained review is a qualifying review
of the input that is at least as recent as every qualifying review by the
same author, with at most one review retained per author. -/
theorem review_group_latest_per_author_spec (a prUser : String) (t1 t2 : Nat)
    (commits : List Commit) (h : a ≠ prUser) (hlt : t1 < t2) :
    fetch_pull_request_review_status_group
      [Review.mk a PullRequestReviewState.CHANGES_REQUESTED t1,
       Review.mk a PullRequestReviewState.APPROVED t2] commits prUser
      = some PullRequestStatusGroup.approved
    ∧ ∀ (reviews : List Review) (u : String),
        ((lastReviews reviews u).Pairwise (fun r s => r.user ≠ s.user))
        ∧ ∀ r ∈ lastReviews reviews u,
            r ∈ reviews ∧ r.user ≠ u ∧ r.state ≠ PullRequestReviewState.COMMENTED
            ∧ ∀ s ∈ reviews, s.user = r.user →
                s.state ≠ PullRequestReviewState.COMMENTED →
                s.submitted_at ≤ r.submitted_at := by
  constructor
  · have hpair := lastReviews_pair a prUser PullRequestReviewState.CHANGES_REQUESTED
      PullRequestReviewState.APPROVED t1 t2 h hlt (by decide) (by decide)
    unfold fetch_pull_request_review_status_group
    rw [hpair]
    simp [reviewFlags, (by decide : ¬(PullRequestReviewState.APPROVED
      = PullRequestReviewState.CHANGES_REQUESTED))]
  · intro reviews u
    refine ⟨keepLastReviewPerUser_users_nodup _ [], ?_⟩
    intro r hr
    obtain ⟨hm, hu, hc⟩ := lastReviews_mem reviews u r hr
    exact ⟨hm, hu, hc, fun s hs husr hsc => lastReviews_max reviews u r hr s hs husr hsc⟩

/-- Concrete instance of `review_group_latest_per_author_spec`:
changes-requested at time 1 then approved at time 2 by the same reviewer. -/
theorem review_group_latest_per_author_spec_witness :
    fetch_pull_request_review_status_group
      [Review.mk "bob" PullRequestReviewState.CHANGES_REQUESTED 1,
       Review.mk "bob" PullRequestReviewState.APPROVED 2] [] "alice"
      = some PullRequestStatusGroup.approved :=
  (review_group_latest_per_author_spec "bob" "alice" 1 2 [] (by decide) (by decide)).1

/-- Claim C9: when no non-self, non-commented review is approved or
changes-requested, the classifier returns unreviewed (covering zero reviews,
comment-only reviews and self-reviews). -/
theorem review_group_unreviewed_spec (reviews : List Review) (commits : List Commit)
    (prUser : String)
    (h : ∀ r ∈ reviews, r.user ≠ prUser → r.state ≠ PullRequestReviewState.COMMENTED →
      r.state ≠ PullRequestReviewState.APPROVED
      ∧ r.state ≠ PullRequestReviewState.CHANGES_REQUESTED) :
    fetch_pull_request_review_status_group reviews commits prUser
      = some PullRequestStatusGroup.unreviewed := by
  have hCR : ((lastReviews reviews prUser).any
      (fun r => r.state == PullRequestReviewState.CHANGES_REQUESTED)) = false := by
    rw [List.any_eq_false]
    intro r hr
    obtain ⟨hm, hu, hc⟩ := lastReviews_mem reviews prUser r hr
    simp [(h r hm hu hc).2]
  have hAP : ((lastReviews reviews prUser).any
      (fun r => r.state == PullRequestReviewState.APPROVED)) = false := by
    rw [List.any_eq_false]
    intro r hr
    obtain ⟨hm, hu, hc⟩ := lastReviews_mem reviews prUser r hr
    simp [(h r hm hu hc).1]
  unfold fetch_pull_request_review_status_group
  simp only [reviewFlags_eq, Bool.false_or]
  rw [hCR, hAP]
  rfl

/-- Concrete instance of `review_group_unreviewed_spec`: one self-review by
the author and one comment-only review by another user. -/
theorem review_group_unreviewed_spec_witness :
    fetch_pull_request_review_status_group
      [Review.mk "alice" PullRequestReviewState.APPROVED 1,
       Review.mk "bob" PullRequestReviewState.COMMENTED 2] [] "alice"
      = some PullRequestStatusGroup.unreviewed :=
  review_group_unreviewed_spec _ _ _ (by decide)

/-- Claim C10: a review whose state is none of approved, changes-requested or
commented is retained, supersedes the same author's earlier reviews, and sets
neither flag; an approval followed by such a review from the same sole
reviewer is classified unreviewed. -/
theorem review_group_other_state_supersedes (a prUser s : String) (t1 t2 : Nat)
    (commits : List Commit) (h : a ≠ prUser) (hlt : t1 < t2)
    (hs1 : s ≠ PullRequestReviewState.APPROVED)
    (hs2 : s ≠ PullRequestReviewState.CHANGES_REQUESTED)
    (hs3 : s ≠ PullRequestReviewState.COMMENTED) :
    fetch_pull_request_review_status_group
      [Review.mk a PullRequestReviewState.APPROVED t1, Review.mk a s t2] commits prUser
      = some PullRequestStatusGroup.unreviewed := by
  have hpair := lastReviews_pair a prUser PullRequestReviewState.APPROVED s t1 t2 h hlt
    (by decide) hs3
  unfold fetch_pull_request_review_status_group
  rw [hpair]
  simp [reviewFlags, hs1, hs2]

/-- Concrete instance of `review_group_other_state_supersedes`: approval at
time 1 superseded by a `PENDING` review at time 2. -/
theorem review_group_other_state_supersedes_witness :
    fetch_pull_request_review_status_group
      [Review.mk "bob" PullRequestReviewState.APPROVED 1,
       Review.mk "bob" PullRequestReviewState.PENDING 2] [] "alice"
      = some PullRequestStatusGroup.unreviewed :=
  review_group_other_state_supersedes "bob" "alice" PullRequestReviewState.PENDING 1 2 []
    (by decide) (by decide) (by decide) (by decide) (by decide)

/-- Claim C7: when the retained reviews contain a changes-requested review but
the commit list is empty, the classifier reaches `commits[0]` on an empty
list; the `IndexError` this raises in Python (modelled by `none`) aborts the
run instead of producing a group. -/
theorem review_group_zero_commits_no_group (reviews : List Review) (prUser : String)
    (hcr : ∃ r ∈ lastReviews reviews prUser,
      r.state = PullRequestReviewState.CHANGES_REQUESTED) :
    fetch_pull_request_review_status_group reviews [] prUser = none := by
  obtain ⟨r, hr, hst⟩ := hcr
  have hany : (lastReviews reviews prUser).any
      (fun x => x.state == PullRequestReviewState.CHANGES_REQUESTED) = true :=
    List.any_eq_true.mpr ⟨r, hr, by simp [hst]⟩
  unfold fetch_pull_request_review_status_group
  simp only [reviewFlags_eq, Bool.false_or]
  cases h : lastReviews reviews prUser with
  | nil => rw [h] at hany; simp at hany
  | cons x xs =>
    rw [h] at hany
    rw [hany, if_pos rfl]
    rfl

/-- Concrete instance of `review_group_zero_commits_no_group`: one
changes-requested review from another user, zero commits. -/
theorem review_group_zero_commits_no_group_witness :
    fetch_pull_request_review_status_group
      [Review.mk "bob" PullRequestReviewState.CHANGES_REQUESTED 5] [] "alice" = none :=
  review_group_zero_commits_no_group _ _ (by decide)

end SlackPullReminder
